import Mathlib

/-!
Verification of the in-memory key-value store `db/mem_db.go` (package `db`
of this repository): point operations, iterator construction and traversal.

Modelling conventions (shallow embedding):
* A Go byte slice `[]byte` is `Bytes := Option (List Nat)`: `none` is the
  nil slice, `some l` a non-nil slice with contents `l`.  A Go `string`
  (the map key representation, always obtained from a non-nil slice) is a
  plain `List Nat`.
* The Go `map[string][]byte` is an association list `List (List Nat × List Nat)`;
  `db.db[k]` on an absent key yields the zero value, the nil slice, which we
  render as `none`.  Map iteration order is irrelevant here because
  `getSortedKeys` sorts the collected keys before use.
* The mutex is dropped: all modelled executions are sequential, each Go
  method becomes a pure function from the pre-state (and its arguments) to
  its result and post-state.
* A Go `panic` is rendered by returning `none` from an `Option`-valued
  function (`memDBIterator.Next/Key/Value` below).
-/

/-- Byte-wise lexicographic strict order on byte strings, exactly Go's
`string` comparison (`<`) and `bytes.Compare(a, b) < 0`: a strict prefix
sorts first, otherwise the first differing byte decides. -/
def lexLt : List Nat → List Nat → Bool
  | [], [] => false
  | [], _ :: _ => true
  | _ :: _, [] => false
  | a :: as, b :: bs => if a < b then true else if b < a then false else lexLt as bs

/-- `a <= b` in byte-wise lexicographic order. -/
def lexLe (a b : List Nat) : Bool := !lexLt b a

/-- A Go byte slice: `none` is the nil slice, `some l` a non-nil slice. -/
abbrev Bytes := Option (List Nat)

/-- `nonNilBytes` of the helper package: a nil slice becomes the canonical
empty slice, any non-nil slice is returned unchanged.  (This helper lives
outside `mem_db.go`; its behaviour is the normalization the spec states:
"a key or value that is semantically absent/nil must be normalized to a
canonical ... zero-length representation".) -/
def nonNilBytes (bz : Bytes) : List Nat := bz.getD []

/-- Go's `bytes.Equal`: byte-sequence equality, under which a nil slice and
an empty slice are equal. -/
def goBytesEqual (a b : Bytes) : Bool := nonNilBytes a = nonNilBytes b

/-- Modelled from the spec: `IsKeyInDomain` (declared in this repository's
db utility file, not present under the sources here) as called by
`getSortedKeys` with its `isReverse` argument fixed to `false`.  Spec:
"key is in range `[start, end)` using byte-lexicographic comparison; a
nil/absent `start` means unbounded below, a nil/absent `end` means
unbounded above."  A nil bound is the empty byte string, so the lower
bound check `start <= key` holds vacuously for a nil `start`; an empty
`end` means unbounded above. -/
def IsKeyInDomain (key : List Nat) (start endB : Bytes) : Bool :=
  lexLe (nonNilBytes start) key &&
    ((nonNilBytes endB).isEmpty || lexLt key (nonNilBytes endB))

/-- Lookup in the association list modelling `map[string][]byte`:
`none` when the key is absent (Go returns the nil slice). -/
def mapGet : List (List Nat × List Nat) → List Nat → Option (List Nat)
  | [], _ => none
  | (k', v) :: rest, k => if k' = k then some v else mapGet rest k

/-- Insert/overwrite in the association list (Go `m[k] = v`). -/
def mapSet : List (List Nat × List Nat) → List Nat → List Nat → List (List Nat × List Nat)
  | [], k, v => [(k, v)]
  | (k', v') :: rest, k, v =>
    if k' = k then (k, v) :: rest else (k', v') :: mapSet rest k v

/-- Removal from the association list (Go `delete(m, k)`). -/
def mapDel (m : List (List Nat × List Nat)) (k : List Nat) : List (List Nat × List Nat) :=
  m.filter (fun e => !(e.1 = k : Bool))

/-- The `MemDB` store: the contents of its Go map `db map[string][]byte`. -/
structure MemDB where
  entries : List (List Nat × List Nat)
deriving DecidableEq, Repr

/-- `NewMemDB`: an empty store. -/
def NewMemDB : MemDB := ⟨[]⟩

namespace MemDB

/-- `Get`: normalizes the key and returns `db.db[string(key)]`; the Go map
read yields the nil slice (`none`) when the key is absent, and the stored
(always non-nil) value otherwise. -/
def Get (db : MemDB) (key : Bytes) : Bytes :=
  match mapGet db.entries (nonNilBytes key) with
  | none => none
  | some v => some v

/-- `Has`: normalizes the key and reports map membership. -/
def Has (db : MemDB) (key : Bytes) : Bool :=
  (mapGet db.entries (nonNilBytes key)).isSome

/-- `SetNoLock`: normalizes key and value and stores the pair. -/
def SetNoLock (db : MemDB) (key value : Bytes) : MemDB :=
  ⟨mapSet db.entries (nonNilBytes key) (nonNilBytes value)⟩

/-- `Set`: takes the lock and calls `SetNoLock`. -/
def Set (db : MemDB) (key value : Bytes) : MemDB := db.SetNoLock key value

/-- `SetSync`: identical body to `Set`. -/
def SetSync (db : MemDB) (key value : Bytes) : MemDB := db.SetNoLock key value

/-- `DeleteNoLock`: normalizes the key and removes the entry. -/
def DeleteNoLock (db : MemDB) (key : Bytes) : MemDB :=
  ⟨mapDel db.entries (nonNilBytes key)⟩

/-- `Delete`: takes the lock and calls `DeleteNoLock`. -/
def Delete (db : MemDB) (key : Bytes) : MemDB := db.DeleteNoLock key

/-- `DeleteSync`: identical body to `Delete`. -/
def DeleteSync (db : MemDB) (key : Bytes) : MemDB := db.DeleteNoLock key

end MemDB

/-- One step of insertion sort by `lexLe`. -/
def insertSorted (x : List Nat) : List (List Nat) → List (List Nat)
  | [] => [x]
  | y :: ys => if lexLe x y then x :: y :: ys else y :: insertSorted x ys

/-- `sort.Strings`: ascending byte-lexicographic sort (the collected keys
are distinct, so any correct sort yields the same list; we use insertion
sort). -/
def sortStrings (l : List (List Nat)) : List (List Nat) :=
  l.foldr insertSorted []

/-- The `reverse` branch of `getSortedKeys`, exactly as written:
`for i := 0; i < nkeys/2; i++ { keys[i] = keys[nkeys-i-1] }`.
Each iteration overwrites slot `i` with the element at `nkeys-i-1`; since
`nkeys-i-1 >= nkeys/2` for every `i < nkeys/2`, the slots read are never
ones previously written, so the loop's result is pointwise:
slot `i` holds the original element `nkeys-1-i` when `i < nkeys/2` and the
original element `i` otherwise.  (All indices are in bounds, so the `getD`
default is never used.) -/
def halfReverse (keys : List (List Nat)) : List (List Nat) :=
  let n := keys.length
  (List.range n).map (fun i => if i < n / 2 then keys.getD (n - 1 - i) [] else keys.getD i [])

/-- `getSortedKeys`: scan the map's keys, keep those in the domain
(`IsKeyInDomain` with `isReverse` hardcoded to `false` in the source),
sort ascending, and apply the `reverse` branch when asked. -/
def MemDB.getSortedKeys (db : MemDB) (start endB : Bytes) (reverse : Bool) : List (List Nat) :=
  let keys := (db.entries.map (·.1)).filter (fun k => IsKeyInDomain k start endB)
  let keys := sortStrings keys
  if reverse then halfReverse keys else keys

/-- The `memDBIterator`: cursor, snapshot keys, and the original bounds.
The Go struct also holds a live pointer to the store; in this pure model
`Value` receives the current store explicitly (and after `Close`, which
nils that pointer, `Value` panics on the validity assertion before any
dereference, so the pointer needs no separate model).  The Go cursor is an
`int` that starts at `0` and is only ever incremented, so `Nat` is exact
and the `0 <= itr.cur` half of `Valid` is automatic. -/
structure memDBIterator where
  cur : Nat
  keys : List (List Nat)
  start : Bytes
  endB : Bytes
deriving DecidableEq, Repr

/-- `newMemDBIterator`: cursor at 0, given snapshot and bounds. -/
def newMemDBIterator (keys : List (List Nat)) (start endB : Bytes) : memDBIterator :=
  ⟨0, keys, start, endB⟩

/-- `Iterator(start, end)`: forward snapshot iterator. -/
def MemDB.Iterator (db : MemDB) (start endB : Bytes) : memDBIterator :=
  newMemDBIterator (db.getSortedKeys start endB false) start endB

/-- `ReverseIterator(start, end)`: note the source passes `(end, start)`
as the bounds of `getSortedKeys` but reports `(start, end)` to the
iterator. -/
def MemDB.ReverseIterator (db : MemDB) (start endB : Bytes) : memDBIterator :=
  newMemDBIterator (db.getSortedKeys endB start true) start endB

namespace memDBIterator

/-- `Domain`: the original `(start, end)` bounds. -/
def Domain (itr : memDBIterator) : Bytes × Bytes := (itr.start, itr.endB)

/-- `Valid`: `0 <= itr.cur && itr.cur < len(itr.keys)` (the lower half is
automatic for a `Nat` cursor). -/
def Valid (itr : memDBIterator) : Bool := itr.cur < itr.keys.length

/-- `Next`: asserts validity (`none` renders the panic), then advances. -/
def Next (itr : memDBIterator) : Option memDBIterator :=
  if itr.Valid then some { itr with cur := itr.cur + 1 } else none

/-- `Key`: asserts validity, then returns the snapshot key at the cursor.
(The cursor is in bounds when valid, so the `getD` default is never used.) -/
def Key (itr : memDBIterator) : Option (List Nat) :=
  if itr.Valid then some (itr.keys.getD itr.cur []) else none

/-- `Value`: asserts validity, then issues a fresh `Get` for the current
key against the live store `db`. -/
def Value (itr : memDBIterator) (db : MemDB) : Option Bytes :=
  if itr.Valid then some (db.Get (some (itr.keys.getD itr.cur []))) else none

/-- `Close`: drops the snapshot (`itr.keys = nil`); the store pointer is
also nilled in the source, see the structure's comment. -/
def Close (itr : memDBIterator) : memDBIterator := { itr with keys := [] }

end memDBIterator

/-- Mutating store operations, for stating persistence properties. -/
inductive Op where
  | set (key value : Bytes)
  | del (key : Bytes)
deriving DecidableEq, Repr

/-- Apply one operation to the store. -/
def MemDB.applyOp (db : MemDB) : Op → MemDB
  | .set k v => db.Set k v
  | .del k => db.Delete k

/-- Apply a sequence of operations left to right. -/
def MemDB.applyOps (db : MemDB) (ops : List Op) : MemDB :=
  ops.foldl MemDB.applyOp db

/-- Does the operation address the (normalized) key `kn`? -/
def Op.touches : Op → List Nat → Bool
  | .set k _, kn => nonNilBytes k = kn
  | .del k, kn => nonNilBytes k = kn

/-- Is the operation a `Set` of the (normalized) key `kn`? -/
def Op.isSetTo : Op → List Nat → Bool
  | .set k _, kn => nonNilBytes k = kn
  | .del _, _ => false

/-- Run the iterator `n` steps of `Next` (propagating the panic). -/
def iterN : Nat → memDBIterator → Option memDBIterator
  | 0, itr => some itr
  | n + 1, itr => itr.Next.bind (iterN n)

/-- Traversal via `Valid`/`Key`/`Next`: collect keys while valid, with
enough fuel to exhaust the snapshot. -/
def traverse : Nat → memDBIterator → List (List Nat)
  | 0, _ => []
  | fuel + 1, itr =>
    if itr.Valid then
      match itr.Key, itr.Next with
      | some k, some itr' => k :: traverse fuel itr'
      | _, _ => []
    else []

/-- The full key sequence an iterator yields from construction until
`Valid` goes false. -/
def memDBIterator.collect (itr : memDBIterator) : List (List Nat) :=
  traverse itr.keys.length itr

/-- A store holding exactly the keys "a", "b", "c", "d" (bytes 97..100). -/
def dbABCD : MemDB :=
  ((((NewMemDB.Set (some [97]) (some [0])).Set (some [98]) (some [1])).Set
      (some [99]) (some [2])).Set (some [100]) (some [3]))

/-- A store holding exactly the keys "a", "b" (bytes 97, 98). -/
def dbAB : MemDB :=
  (NewMemDB.Set (some [97]) (some [0])).Set (some [98]) (some [1])

/-! ### Map lemmas -/

theorem mapGet_mapSet_self (m : List (List Nat × List Nat)) (k v : List Nat) :
    mapGet (mapSet m k v) k = some v := by
  induction m with
  | nil => simp [mapGet, mapSet]
  | cons e rest ih =>
    obtain ⟨k', v'⟩ := e
    by_cases h : k' = k
    · simp [mapSet, h, mapGet]
    · simp [mapSet, h, mapGet, ih]

theorem mapGet_mapSet_ne (m : List (List Nat × List Nat)) (k v k'' : List Nat)
    (h : k'' ≠ k) : mapGet (mapSet m k v) k'' = mapGet m k'' := by
  have h' : ¬(k = k'') := fun hh => h hh.symm
  induction m with
  | nil => simp [mapGet, mapSet, h']
  | cons e rest ih =>
    obtain ⟨k', v'⟩ := e
    by_cases hk : k' = k
    · subst hk
      simp [mapSet, mapGet, h']
    · by_cases hk'' : k' = k''
      · subst hk''
        simp [mapSet, mapGet, hk]
      · simp [mapSet, mapGet, hk, hk'', ih]

theorem mapGet_mapDel_self (m : List (List Nat × List Nat)) (k : List Nat) :
    mapGet (mapDel m k) k = none := by
  induction m with
  | nil => simp [mapGet, mapDel]
  | cons e rest ih =>
    obtain ⟨k', v'⟩ := e
    by_cases h : k' = k
    · simpa [mapDel, h, mapGet] using ih
    · simpa [mapDel, h, mapGet] using ih

theorem mapGet_mapDel_ne (m : List (List Nat × List Nat)) (k k'' : List Nat)
    (h : k'' ≠ k) : mapGet (mapDel m k) k'' = mapGet m k'' := by
  have h' : ¬(k = k'') := fun hh => h hh.symm
  induction m with
  | nil => simp [mapGet, mapDel]
  | cons e rest ih =>
    obtain ⟨k', v'⟩ := e
    by_cases hk : k' = k
    · subst hk
      simpa [mapDel, mapGet, h'] using ih
    · by_cases hk'' : k' = k''
      · subst hk''
        simp [mapDel, mapGet, hk]
      · simpa [mapDel, mapGet, hk, hk''] using ih

theorem mapGet_none_of_not_mem (m : List (List Nat × List Nat)) (k : List Nat)
    (h : mapGet m k = none) : k ∉ m.map (·.1) := by
  induction m with
  | nil => simp
  | cons e rest ih =>
    obtain ⟨k', v'⟩ := e
    by_cases hk : k' = k
    · simp [mapGet, hk] at h
    · intro hmem
      rcases List.mem_cons.mp hmem with h1 | h2
      · exact hk (by simpa using h1.symm)
      · exact ih (by simpa [mapGet, hk] using h) h2

/-- `Get` is the raw map read on the normalized key. -/
theorem MemDB.Get_eq (db : MemDB) (key : Bytes) :
    db.Get key = mapGet db.entries (nonNilBytes key) := by
  unfold MemDB.Get
  cases mapGet db.entries (nonNilBytes key) <;> rfl

/-! ### Operation-sequence lemmas -/

theorem MemDB.applyOps_cons (db : MemDB) (op : Op) (rest : List Op) :
    db.applyOps (op :: rest) = (db.applyOp op).applyOps rest := rfl

theorem mapGet_applyOp_untouched (db : MemDB) (op : Op) (kn : List Nat)
    (h : op.touches kn = false) :
    mapGet (db.applyOp op).entries kn = mapGet db.entries kn := by
  cases op with
  | set k v =>
    have hk : kn ≠ nonNilBytes k := fun hh => by simp [Op.touches, hh.symm] at h
    simpa [MemDB.applyOp, MemDB.Set, MemDB.SetNoLock] using
      mapGet_mapSet_ne db.entries (nonNilBytes k) (nonNilBytes v) kn hk
  | del k =>
    have hk : kn ≠ nonNilBytes k := fun hh => by simp [Op.touches, hh.symm] at h
    simpa [MemDB.applyOp, MemDB.Delete, MemDB.DeleteNoLock] using
      mapGet_mapDel_ne db.entries (nonNilBytes k) kn hk

theorem mapGet_applyOps_untouched (ops : List Op) (db : MemDB) (kn : List Nat)
    (h : ∀ op ∈ ops, op.touches kn = false) :
    mapGet (db.applyOps ops).entries kn = mapGet db.entries kn := by
  induction ops generalizing db with
  | nil => rfl
  | cons op rest ih =>
    rw [MemDB.applyOps_cons]
    rw [ih (db.applyOp op) (fun o ho => h o (List.mem_cons_of_mem _ ho))]
    exact mapGet_applyOp_untouched db op kn (h op (List.mem_cons_self _ _))

theorem mapGet_applyOp_noSet (db : MemDB) (op : Op) (kn : List Nat)
    (h : op.isSetTo kn = false) (h0 : mapGet db.entries kn = none) :
    mapGet (db.applyOp op).entries kn = none := by
  cases op with
  | set k v =>
    have hk : kn ≠ nonNilBytes k := fun hh => by simp [Op.isSetTo, hh.symm] at h
    rw [show (db.applyOp (Op.set k v)).entries
          = mapSet db.entries (nonNilBytes k) (nonNilBytes v) from rfl]
    rw [mapGet_mapSet_ne db.entries (nonNilBytes k) (nonNilBytes v) kn hk]
    exact h0
  | del k =>
    rw [show (db.applyOp (Op.del k)).entries = mapDel db.entries (nonNilBytes k) from rfl]
    by_cases hk : kn = nonNilBytes k
    · rw [hk, mapGet_mapDel_self]
    · rw [mapGet_mapDel_ne db.entries (nonNilBytes k) kn hk]
      exact h0

theorem mapGet_applyOps_noSet (ops : List Op) (db : MemDB) (kn : List Nat)
    (h : ∀ op ∈ ops, op.isSetTo kn = false) (h0 : mapGet db.entries kn = none) :
    mapGet (db.applyOps ops).entries kn = none := by
  induction ops generalizing db with
  | nil => exact h0
  | cons op rest ih =>
    rw [MemDB.applyOps_cons]
    exact ih (db.applyOp op) (fun o ho => h o (List.mem_cons_of_mem _ ho))
      (mapGet_applyOp_noSet db op kn (h op (List.mem_cons_self _ _)) h0)

/-! ### Iterator and snapshot lemmas -/

theorem memDBIterator.Next_keys (itr itr' : memDBIterator)
    (h : itr.Next = some itr') : itr'.keys = itr.keys := by
  unfold memDBIterator.Next at h
  by_cases hv : itr.Valid = true
  · rw [if_pos hv] at h
    injection h with h1
    rw [← h1]
  · rw [if_neg hv] at h
    exact Option.noConfusion h

theorem iterN_keys (n : Nat) (itr itr' : memDBIterator)
    (h : iterN n itr = some itr') : itr'.keys = itr.keys := by
  induction n generalizing itr with
  | zero =>
    simp [iterN] at h
    exact h ▸ rfl
  | succ n ih =>
    unfold iterN at h
    cases hv : itr.Next with
    | none => simp [hv] at h
    | some itr1 =>
      rw [hv] at h
      rw [show (some itr1).bind (iterN n) = iterN n itr1 from rfl] at h
      exact (ih itr1 h).trans (memDBIterator.Next_keys itr itr1 hv)

theorem memDBIterator.Key_mem (itr : memDBIterator) (k : List Nat)
    (h : itr.Key = some k) : k ∈ itr.keys := by
  unfold memDBIterator.Key at h
  by_cases hv : itr.Valid = true
  · rw [if_pos hv] at h
    injection h with h1
    have hlt : itr.cur < itr.keys.length := by
      simpa [memDBIterator.Valid] using hv
    rw [List.getD_eq_getElem _ _ hlt] at h1
    exact h1 ▸ List.getElem_mem hlt
  · rw [if_neg hv] at h
    exact Option.noConfusion h

theorem mem_insertSorted (a x : List Nat) (l : List (List Nat))
    (h : a ∈ insertSorted x l) : a = x ∨ a ∈ l := by
  induction l with
  | nil =>
    simp [insertSorted] at h
    exact Or.inl h
  | cons y ys ih =>
    unfold insertSorted at h
    by_cases hle : lexLe x y = true
    · rw [if_pos hle] at h
      rcases List.mem_cons.mp h with h1 | h2
      · exact Or.inl h1
      · exact Or.inr h2
    · rw [if_neg hle] at h
      rcases List.mem_cons.mp h with h1 | h2
      · exact Or.inr (h1 ▸ List.mem_cons_self y ys)
      · rcases ih h2 with h3 | h4
        · exact Or.inl h3
        · exact Or.inr (List.mem_cons_of_mem y h4)

theorem mem_sortStrings (a : List Nat) (l : List (List Nat))
    (h : a ∈ sortStrings l) : a ∈ l := by
  induction l with
  | nil => simp [sortStrings] at h
  | cons x xs ih =>
    have h' : a ∈ insertSorted x (sortStrings xs) := h
    rcases mem_insertSorted a x (sortStrings xs) h' with h1 | h2
    · exact h1 ▸ List.mem_cons_self x xs
    · exact List.mem_cons_of_mem x (ih h2)

/-- Every key of a forward snapshot is a key of the store the snapshot
was taken from. -/
theorem mem_getSortedKeys_forward (db : MemDB) (s e : Bytes) (k : List Nat)
    (h : k ∈ db.getSortedKeys s e false) : k ∈ db.entries.map (·.1) := by
  unfold MemDB.getSortedKeys at h
  simp only [if_neg (by simp : ¬(false = true))] at h
  have h1 := mem_sortStrings k _ h
  exact (List.mem_filter.mp h1).1

/-! ### Claim theorems -/

/-- C1: the claim states that on a store with keys "a","b","c","d",
`ReverseIterator("b","d")` yields exactly "c","b".  The code does not:
`ReverseIterator` hands `getSortedKeys` the swapped pair `(end, start)`
while the domain predicate is evaluated with `isReverse` fixed to `false`,
so it keeps only keys `k` with `"d" <= k < "b"` — none.  The resulting
snapshot is empty, the iterator is invalid at construction, and the
traversal yields no keys at all instead of "c","b". -/
theorem C1_reverseIterator_abcd_eval :
    (dbABCD.ReverseIterator (some [98]) (some [100])).collect = [] ∧
    (dbABCD.ReverseIterator (some [98]) (some [100])).Valid = false ∧
    ([] : List (List Nat)) ≠ [[99], [98]] := by
  decide

/-- C2: the claim states that `getSortedKeys` with `reverse = true` returns
exactly the reversal of the ascending sorted key sequence.  The code does
not: its loop `keys[i] = keys[nkeys-i-1]` overwrites the first half without
saving the swapped-out elements, so for the store {"a","b"} over the
unbounded range it returns ["b","b"] where the reversal of the ascending
["a","b"] is ["b","a"]. -/
theorem C2_getSortedKeys_reverse_eval :
    dbAB.getSortedKeys none none true = [[98], [98]] ∧
    (dbAB.getSortedKeys none none false).reverse = [[98], [97]] ∧
    dbAB.getSortedKeys none none true ≠ (dbAB.getSortedKeys none none false).reverse := by
  decide

/-- C3: on a store with exactly the keys "a","b","c","d", `Iterator("b","d")`
snapshots the keys in the half-open byte-lexicographic range ["b","d"),
sorts them ascending, and the traversal via Valid/Key/Next yields exactly
"b","c" in that order. -/
theorem C3_forward_iterator_abcd :
    (dbABCD.Iterator (some [98]) (some [100])).collect = [[98], [99]] := by
  decide

/-- C4: immediately after `Set(k, v)` the store satisfies `Get(k) == v`
(byte equality, after the store's nil-to-empty value normalization) and
`Has(k) == true`, and this persists across any further operations that are
neither a `Delete(k)` nor an overwriting `Set(k, _)`. -/
theorem C4_set_get_has_persist (db : MemDB) (k v : Bytes) (ops : List Op)
    (h : ∀ op ∈ ops, op.touches (nonNilBytes k) = false) :
    ((db.Set k v).applyOps ops).Get k = some (nonNilBytes v) ∧
    ((db.Set k v).applyOps ops).Has k = true ∧
    goBytesEqual (((db.Set k v).applyOps ops).Get k) v = true := by
  have hm : mapGet ((db.Set k v).applyOps ops).entries (nonNilBytes k)
      = some (nonNilBytes v) := by
    rw [mapGet_applyOps_untouched ops (db.Set k v) (nonNilBytes k) h]
    exact mapGet_mapSet_self db.entries (nonNilBytes k) (nonNilBytes v)
  refine ⟨?_, ?_, ?_⟩
  · rw [MemDB.Get_eq, hm]
  · unfold MemDB.Has
    rw [hm]
    rfl
  · unfold goBytesEqual
    rw [MemDB.Get_eq, hm]
    simp [nonNilBytes]

theorem C4_set_get_has_persist_witness :
    (∀ op ∈ [Op.del (some [2])], op.touches (nonNilBytes (some [1])) = false) ∧
    (((NewMemDB.Set (some [1]) none).applyOps [Op.del (some [2])]).Get (some [1])
        = some (nonNilBytes none) ∧
      ((NewMemDB.Set (some [1]) none).applyOps [Op.del (some [2])]).Has (some [1]) = true ∧
      goBytesEqual
        (((NewMemDB.Set (some [1]) none).applyOps [Op.del (some [2])]).Get (some [1]))
        none = true) :=
  ⟨by decide, C4_set_get_has_persist NewMemDB (some [1]) none [Op.del (some [2])] (by decide)⟩

/-- C5: iterator snapshot isolation for keys.  If a key `k` is absent from
the store when an iterator is constructed, then inserting it afterwards
(making `Has(k)` true on the live store) never makes any reachable cursor
position of that iterator return `k` from `Key()`: the snapshot sequence is
fixed at construction. -/
theorem C5_snapshot_isolation (db : MemDB) (s e : Bytes) (k : List Nat) (v : Bytes)
    (n : Nat) (itr' : memDBIterator)
    (hk : db.Has (some k) = false)
    (hstep : iterN n (db.Iterator s e) = some itr') :
    (db.Set (some k) v).Has (some k) = true ∧ itr'.Key ≠ some k := by
  constructor
  · unfold MemDB.Has
    rw [show ((db.Set (some k) v).entries)
          = mapSet db.entries k (nonNilBytes v) from rfl]
    rw [show nonNilBytes (some k) = k from rfl]
    rw [mapGet_mapSet_self]
    rfl
  · intro hkey
    have h1 : k ∈ itr'.keys := memDBIterator.Key_mem itr' k hkey
    have h2 : itr'.keys = (db.Iterator s e).keys :=
      iterN_keys n (db.Iterator s e) itr' hstep
    have h3 : k ∈ db.getSortedKeys s e false := by
      rw [h2] at h1
      exact h1
    have h4 : k ∈ db.entries.map (·.1) := mem_getSortedKeys_forward db s e k h3
    have h5 : mapGet db.entries k = none := by
      unfold MemDB.Has at hk
      rw [show nonNilBytes (some k) = k from rfl] at hk
      cases hmg : mapGet db.entries k with
      | none => rfl
      | some w =>
        rw [hmg] at hk
        exact Bool.noConfusion hk
    exact mapGet_none_of_not_mem db.entries k h5 h4

theorem C5_snapshot_isolation_witness :
    ((NewMemDB.Set (some [97]) (some [1])).Has (some [98]) = false) ∧
    (iterN 0 ((NewMemDB.Set (some [97]) (some [1])).Iterator none none)
        = some ((NewMemDB.Set (some [97]) (some [1])).Iterator none none)) ∧
    (((NewMemDB.Set (some [97]) (some [1])).Set (some [98]) (some [2])).Has (some [98]) = true ∧
      ((NewMemDB.Set (some [97]) (some [1])).Iterator none none).Key ≠ some [98]) :=
  ⟨by decide, rfl,
    C5_snapshot_isolation (NewMemDB.Set (some [97]) (some [1])) none none [98] (some [2]) 0
      ((NewMemDB.Set (some [97]) (some [1])).Iterator none none) (by decide) rfl⟩

/-- C6: iterator values are live, not cached.  At any valid position whose
current key is `k`, `Value()` issues a fresh `Get` against the store it is
given: if the store was mutated so that `k` now maps to `v`, `Value()                 `
returns that new value (normalized), and if `k` was deleted, `Value()`
returns the store's absent indicator (the nil slice), not a stale value. -/
theorem C6_value_live (itr : memDBIterator) (db : MemDB) (v : Bytes) (k : List Nat)
    (hkey : itr.Key = some k) :
    itr.Value (db.Set (some k) v) = some (some (nonNilBytes v)) ∧
    itr.Value (db.Delete (some k)) = some none := by
  have hv : itr.Valid = true := by
    by_cases hv : itr.Valid = true
    · exact hv
    · unfold memDBIterator.Key at hkey
      rw [if_neg hv] at hkey
      exact Option.noConfusion hkey
  have hcur : itr.keys.getD itr.cur [] = k := by
    unfold memDBIterator.Key at hkey
    rw [if_pos hv] at hkey
    injection hkey
  constructor
  · unfold memDBIterator.Value
    rw [if_pos hv, hcur, MemDB.Get_eq]
    rw [show ((db.Set (some k) v).entries) = mapSet db.entries k (nonNilBytes v) from rfl]
    rw [show nonNilBytes (some k) = k from rfl]
    rw [mapGet_mapSet_self]
  · unfold memDBIterator.Value
    rw [if_pos hv, hcur, MemDB.Get_eq]
    rw [show ((db.Delete (some k)).entries) = mapDel db.entries k from rfl]
    rw [show nonNilBytes (some k) = k from rfl]
    rw [mapGet_mapDel_self]

theorem C6_value_live_witness :
    ((newMemDBIterator [[97]] none none).Key = some [97]) ∧
    ((newMemDBIterator [[97]] none none).Value (NewMemDB.Set (some [97]) (some [5]))
        = some (some (nonNilBytes (some [5]))) ∧
      (newMemDBIterator [[97]] none none).Value (NewMemDB.Delete (some [97])) = some none) :=
  ⟨by decide, C6_value_live (newMemDBIterator [[97]] none none) NewMemDB (some [5]) [97] (by decide)⟩

/-- C7: operating an iterator whose `Valid()` is false is a hard failure:
`Next()`, `Key()` and `Value()` all hit the `assertIsValid` panic (rendered
`none`); in particular after `Close()` (which empties the snapshot, making
`Valid()` false) each of the three panics. -/
theorem C7_invalid_state_panics (itr : memDBIterator) (db : MemDB) :
    (itr.Valid = false → itr.Next = none ∧ itr.Key = none ∧ itr.Value db = none) ∧
    (itr.Close.Next = none ∧ itr.Close.Key = none ∧ itr.Close.Value db = none) := by
  have hclosed : ¬(itr.Close.Valid = true) := by
    unfold memDBIterator.Close memDBIterator.Valid
    simp
  constructor
  · intro hv
    have hv' : ¬(itr.Valid = true) := by simp [hv]
    refine ⟨?_, ?_, ?_⟩
    · unfold memDBIterator.Next
      rw [if_neg hv']
    · unfold memDBIterator.Key
      rw [if_neg hv']
    · unfold memDBIterator.Value
      rw [if_neg hv']
  · refine ⟨?_, ?_, ?_⟩
    · unfold memDBIterator.Next
      rw [if_neg hclosed]
    · unfold memDBIterator.Key
      rw [if_neg hclosed]
    · unfold memDBIterator.Value
      rw [if_neg hclosed]

theorem C7_invalid_state_panics_witness :
    ((newMemDBIterator [] none none).Valid = false) ∧
    ((newMemDBIterator [] none none).Next = none ∧
      (newMemDBIterator [] none none).Key = none ∧
      (newMemDBIterator [] none none).Value NewMemDB = none) ∧
    ((newMemDBIterator [[97]] none none).Close.Next = none ∧
      (newMemDBIterator [[97]] none none).Close.Key = none ∧
      (newMemDBIterator [[97]] none none).Close.Value NewMemDB = none) :=
  ⟨by decide,
    (C7_invalid_state_panics (newMemDBIterator [] none none) NewMemDB).1 (by decide),
    (C7_invalid_state_panics (newMemDBIterator [[97]] none none) NewMemDB).2⟩

/-- C8: reading a key that was never set (here: any operation sequence from
the fresh store containing no `Set` of that key), or that was deleted and
not re-set afterwards, gives `Has(k) == false` and the absent indicator
(the nil slice) from `Get(k)`; and that absent indicator is distinct from
what `Get` returns for a key stored with an empty value. -/
theorem C8_absent_key_get_has (k : Bytes) (ops tail : List Op) (db : MemDB)
    (h1 : ∀ op ∈ ops, op.isSetTo (nonNilBytes k) = false)
    (h2 : ∀ op ∈ tail, op.isSetTo (nonNilBytes k) = false) :
    ((NewMemDB.applyOps ops).Get k = none ∧ (NewMemDB.applyOps ops).Has k = false) ∧
    (((db.Delete k).applyOps tail).Get k = none ∧
      ((db.Delete k).applyOps tail).Has k = false) ∧
    ((db.Set k (some [])).Get k = some [] ∧
      (db.Set k (some [])).Get k ≠ (NewMemDB.applyOps ops).Get k) := by
  have hA : mapGet (NewMemDB.applyOps ops).entries (nonNilBytes k) = none :=
    mapGet_applyOps_noSet ops NewMemDB (nonNilBytes k) h1 rfl
  have hB : mapGet ((db.Delete k).applyOps tail).entries (nonNilBytes k) = none := by
    apply mapGet_applyOps_noSet tail (db.Delete k) (nonNilBytes k) h2
    rw [show ((db.Delete k).entries) = mapDel db.entries (nonNilBytes k) from rfl]
    exact mapGet_mapDel_self db.entries (nonNilBytes k)
  have hC : (db.Set k (some [])).Get k = some [] := by
    rw [MemDB.Get_eq]
    rw [show ((db.Set k (some [])).entries) = mapSet db.entries (nonNilBytes k) [] from rfl]
    exact mapGet_mapSet_self db.entries (nonNilBytes k) []
  refine ⟨⟨?_, ?_⟩, ⟨?_, ?_⟩, hC, ?_⟩
  · rw [MemDB.Get_eq, hA]
  · unfold MemDB.Has
    rw [hA]
    rfl
  · rw [MemDB.Get_eq, hB]
  · unfold MemDB.Has
    rw [hB]
    rfl
  · rw [hC, MemDB.Get_eq, hA]
    exact fun hh => Option.noConfusion hh

theorem C8_absent_key_get_has_witness :
    (∀ op ∈ [Op.set (some [1]) (some [2])], op.isSetTo (nonNilBytes none) = false) ∧
    (∀ op ∈ [Op.del (some [1])], op.isSetTo (nonNilBytes none) = false) ∧
    (((NewMemDB.applyOps [Op.set (some [1]) (some [2])]).Get none = none ∧
        (NewMemDB.applyOps [Op.set (some [1]) (some [2])]).Has none = false) ∧
      ((((NewMemDB.Set none (some [7])).Delete none).applyOps [Op.del (some [1])]).Get none = none ∧
        (((NewMemDB.Set none (some [7])).Delete none).applyOps [Op.del (some [1])]).Has none = false) ∧
      (((NewMemDB.Set none (some [7])).Set none (some [])).Get none = some [] ∧
        ((NewMemDB.Set none (some [7])).Set none (some [])).Get none
          ≠ (NewMemDB.applyOps [Op.set (some [1]) (some [2])]).Get none)) :=
  ⟨by decide, by decide,
    C8_absent_key_get_has none [Op.set (some [1]) (some [2])] [Op.del (some [1])]
      (NewMemDB.Set none (some [7])) (by decide) (by decide)⟩

/-- C9: nil/empty normalization is applied on every read and write path:
`Get`, `Has`, `Set` and `Delete` each behave identically on the nil key and
on the zero-length key, and `Set` stores a nil value as the canonical
zero-length value (a later `Get` returns the non-nil empty slice). -/
theorem C9_nil_empty_normalization (db : MemDB) (v k : Bytes) :
    db.Get none = db.Get (some []) ∧
    db.Has none = db.Has (some []) ∧
    db.Set none v = db.Set (some []) v ∧
    db.Delete none = db.Delete (some []) ∧
    (db.Set k none).Get k = some [] := by
  refine ⟨rfl, rfl, rfl, rfl, ?_⟩
  rw [MemDB.Get_eq]
  rw [show ((db.Set k none).entries) = mapSet db.entries (nonNilBytes k) [] from rfl]
  exact mapGet_mapSet_self db.entries (nonNilBytes k) []

/-- C10: after `Close()` the iterator's `Valid()` is false; `Valid`,
`Domain` and a repeated `Close` are total (they perform no validity
assertion in the source, hence cannot hit the panic), `Domain` still
reports the original `(start, end)` bounds, and closing again changes
nothing. -/
theorem C10_close_valid_domain (itr : memDBIterator) :
    itr.Close.Valid = false ∧
    itr.Close.Domain = itr.Domain ∧
    itr.Close.Domain = (itr.start, itr.endB) ∧
    itr.Close.Close = itr.Close := by
  refine ⟨?_, rfl, rfl, rfl⟩
  unfold memDBIterator.Close memDBIterator.Valid
  simp
